import Mathlib

/-!
Verification of the complex-tensor operator library (`operators.py`) and the
propagation operators (`propagation.py`) of the PhaseContrastTomographySolver
repository.

Two shallow embeddings are used, matching the two layers of the code:

* `Tensor`: multi-dimensional tensors as a shape (list of dimension sizes)
  plus a row-major flat data list over `ℚ`.  This models the torch tensors
  manipulated by `operators.py`: trailing-axis indexing (`t[..., i]`),
  cloning with channel updates, `torch.stack` on a new trailing axis,
  suffix-shape broadcasting (the only broadcasting the embedded code paths
  use), axis-0 and last-axis reduction, and `torch.roll`.  Operators that can
  raise (`assert`, index out of range, incompatible shapes) return
  `Except Err Tensor`.

* `Grid H W`: wave fields as functions `Fin H → Fin W → ℚ × ℚ`, the
  pixelwise (real, imaginary) pairs of `propagation.py`.  The external torch
  FFT routines and the transcendental scalar functions (exp, cos, sin, sqrt,
  atan2) are not part of this repository; they enter as parameters
  (`TorchFFT`, `TorchMath`), and theorems that need their defining equations
  (for instance `exp 0 = 1`) take those equations as hypotheses.  Exact
  rational arithmetic stands in for float arithmetic throughout ("exact
  arithmetic" in the specification's sense); float rounding and non-finite
  propagation are outside the model.
-/

namespace PCTS

/-- A torch tensor: dimension sizes plus row-major flat storage over `ℚ`. -/
structure Tensor where
  shape : List ℕ
  data : List ℚ
deriving DecidableEq

/-- Number of axes (`len(t.shape)`). -/
def Tensor.rank (t : Tensor) : ℕ := t.shape.length

/-- Well-formedness: the flat storage has exactly one entry per index. -/
def Tensor.wf (t : Tensor) : Prop := t.data.length = t.shape.prod

instance (t : Tensor) : Decidable t.wf := by unfold Tensor.wf; infer_instance

/-- All multi-indices of a shape, enumerated in row-major order, i.e. in the
order of the flat storage. -/
def allIdx : List ℕ → List (List ℕ)
  | [] => [[]]
  | n :: s => (List.range n).flatMap (fun i => (allIdx s).map (fun idx => i :: idx))

/-- Row-major flat position of a multi-index. -/
def flatIdx : List ℕ → List ℕ → ℕ
  | _ :: s, i :: idx => i * s.prod + flatIdx s idx
  | _, _ => 0

/-- A multi-index is valid for a shape when it has one coordinate per axis,
each below the axis size. -/
def validIdx : List ℕ → List ℕ → Bool
  | [], [] => true
  | n :: s, i :: idx => decide (i < n) && validIdx s idx
  | _, _ => false

/-- Entry of a tensor at a multi-index (0 out of range). -/
def Tensor.get (t : Tensor) (idx : List ℕ) : ℚ :=
  t.data.getD (flatIdx t.shape idx) 0

/-- Build a tensor of a given shape from its entry function. -/
def ofFn (s : List ℕ) (f : List ℕ → ℚ) : Tensor :=
  ⟨s, (allIdx s).map f⟩

/-- Apply a function to the coordinate at one position of a multi-index
(identity beyond the end of the list). -/
def modIdx : ℕ → (ℕ → ℕ) → List ℕ → List ℕ
  | _, _, [] => []
  | 0, f, i :: idx => f i :: idx
  | a + 1, f, i :: idx => i :: modIdx a f idx

/-- Source coordinate of `torch.roll` by `k` along an axis of size `n`:
output position `i` reads input position `(i - k) mod n`. -/
def shiftIdx (n : ℕ) (k : ℤ) (i : ℕ) : ℕ :=
  (((i : ℤ) - k) % (n : ℤ)).toNat

/-- `torch.roll(t, k, dims=a)`: circular shift by `k` along axis `a`. -/
def Tensor.roll (t : Tensor) (k : ℤ) (a : ℕ) : Tensor :=
  ofFn t.shape (fun idx => t.get (modIdx a (shiftIdx (t.shape.getD a 1) k) idx))

/-- Errors raised by the embedded operators: a failed index into a tensor
(including indexing a 0-dimensional tensor), a failed `assert`, and an
elementwise operation on incompatible shapes. -/
inductive Err where
  | indexError
  | assertionError
  | broadcastError
deriving DecidableEq

instance {ε α : Type} [DecidableEq ε] [DecidableEq α] : DecidableEq (Except ε α) := fun x y =>
  match x, y with
  | .ok a, .ok b =>
    if h : a = b then isTrue (by rw [h]) else isFalse (by intro hc; cases hc; exact h rfl)
  | .error a, .error b =>
    if h : a = b then isTrue (by rw [h]) else isFalse (by intro hc; cases hc; exact h rfl)
  | .ok _, .error _ => isFalse (by intro hc; cases hc)
  | .error _, .ok _ => isFalse (by intro hc; cases hc)

/-- Whether an operator call raised. -/
def isErr {α : Type} : Except Err α → Bool
  | .error _ => true
  | .ok _ => false

/-- Whether an operator call returned normally. -/
def isOk {α : Type} : Except Err α → Bool
  | .error _ => false
  | .ok _ => true

/-- The transcendental scalar routines the library takes from torch.  They
are external to the repository, so they are parameters of the embedding. -/
structure TorchMath where
  exp : ℚ → ℚ
  cos : ℚ → ℚ
  sin : ℚ → ℚ
  sqrt : ℚ → ℚ
  atan2 : ℚ → ℚ → ℚ

namespace op

/-- Elementwise torch binary operation.  torch broadcasting is modelled in
the suffix case (one operand's shape a suffix of the other's), which is the
only broadcasting exercised by the embedded code paths; any other shape pair
is reported as a broadcast error. -/
def bop (f : ℚ → ℚ → ℚ) (t1 t2 : Tensor) : Except Err Tensor :=
  if t2.rank ≤ t1.rank then
    if t1.shape.drop (t1.rank - t2.rank) = t2.shape then
      .ok (ofFn t1.shape (fun idx => f (t1.get idx) (t2.get (idx.drop (t1.rank - t2.rank)))))
    else .error .broadcastError
  else
    if t2.shape.drop (t2.rank - t1.rank) = t1.shape then
      .ok (ofFn t2.shape (fun idx => f (t1.get (idx.drop (t2.rank - t1.rank))) (t2.get idx)))
    else .error .broadcastError

/-- `t[..., i]`: select index `i` on the trailing axis.  Raises on a
0-dimensional tensor or an out-of-range index. -/
def selectLast (t : Tensor) (i : ℕ) : Except Err Tensor :=
  if i < t.shape.getLast?.getD 0 then
    .ok (ofFn t.shape.dropLast (fun idx => t.get (idx ++ [i])))
  else .error .indexError

/-- `torch.stack((t1, t2), dim=len(t1.shape))`: stack two equal-shaped
tensors along a new trailing axis of size 2. -/
def stackLast (t1 t2 : Tensor) : Except Err Tensor :=
  if t1.shape = t2.shape then
    .ok (ofFn (t1.shape ++ [2]) (fun idx =>
      if idx.getLast?.getD 0 = 0 then t1.get idx.dropLast else t2.get idx.dropLast))
  else .error .broadcastError

/-- Elementwise unary torch operation (acts on a fresh tensor). -/
def mapT (f : ℚ → ℚ) (t : Tensor) : Tensor :=
  ofFn t.shape (fun idx => f (t.get idx))

/-- `t**2` elementwise. -/
def sq (t : Tensor) : Tensor := mapT (fun x => x * x) t

/-- `c * t`: scalar times tensor. -/
def scalarMul (c : ℚ) (t : Tensor) : Tensor := mapT (fun x => c * x) t

/-- `torch.zeros_like(t)`. -/
def zerosLike (t : Tensor) : Tensor := mapT (fun _ => 0) t

/-- `t.sum(-1)`: sum over the trailing axis.  Raises on a 0-dimensional
tensor. -/
def sumLast (t : Tensor) : Except Err Tensor :=
  match t.shape.getLast? with
  | none => .error .indexError
  | some n => .ok (ofFn t.shape.dropLast (fun idx =>
      ((List.range n).map (fun j => t.get (idx ++ [j]))).sum))

/-- `t.sum(0)`: sum over the leading axis.  Raises on a 0-dimensional
tensor. -/
def sumAxis0 (t : Tensor) : Except Err Tensor :=
  match t.shape with
  | [] => .error .indexError
  | n :: s => .ok (ofFn s (fun idx =>
      ((List.range n).map (fun j => t.get (j :: idx))).sum))

/-- `operators.conj` (operators.py:30-34): clone, then `t[..., 1] *= -1`.
There is no shape assert; indexing channel 1 needs a trailing axis of size at
least 2, and any larger trailing axis is accepted silently. -/
def conj (t : Tensor) : Except Err Tensor :=
  if 1 < t.shape.getLast?.getD 0 then
    .ok (ofFn t.shape (fun idx =>
      if idx.getLast?.getD 0 = 1 then -(t.get idx) else t.get idx))
  else .error .indexError

/-- `operators.angle` (operators.py:36-38): `atan2(t[..., 1], t[..., 0])`.
No shape assert. -/
def angle (m : TorchMath) (t : Tensor) : Except Err Tensor := do
  let im ← selectLast t 1
  let re ← selectLast t 0
  bop m.atan2 im re

/-- `operators.exp` (operators.py:49-55): clone; channel 0 becomes
`exp(re)*cos(im)`, channel 1 becomes `exp(re)*sin(im)`; any further channels
of an oversized trailing axis are left as cloned.  No shape assert. -/
def exp (m : TorchMath) (t : Tensor) : Except Err Tensor :=
  if 1 < t.shape.getLast?.getD 0 then
    .ok (ofFn t.shape (fun idx =>
      if idx.getLast?.getD 0 = 0 then
        m.exp (t.get (idx.dropLast ++ [0])) * m.cos (t.get (idx.dropLast ++ [1]))
      else if idx.getLast?.getD 0 = 1 then
        m.exp (t.get (idx.dropLast ++ [0])) * m.sin (t.get (idx.dropLast ++ [1]))
      else t.get idx))
  else .error .indexError

/-- `operators.abs` (operators.py:72-76): asserts trailing axis size 2, then
`((t**2).sum(-1))**0.5`.  `**0.5` is the external square root `m.sqrt`. -/
def abs (m : TorchMath) (t : Tensor) : Except Err Tensor :=
  match t.shape.getLast? with
  | none => .error .indexError
  | some n =>
    if n = 2 then do
      let s ← sumLast (sq t)
      pure (mapT m.sqrt s)
    else .error .assertionError

/-- `operators.multiply_complex` (operators.py:57-63):
`(a0*b0 - a1*b1, a0*b1 + a1*b0)` stacked on a new trailing axis.
No shape assert. -/
def multiply_complex (t1 t2 : Tensor) : Except Err Tensor := do
  let a0 ← selectLast t1 0
  let a1 ← selectLast t1 1
  let b0 ← selectLast t2 0
  let b1 ← selectLast t2 1
  let p1 ← bop (fun x y => x * y) a0 b0
  let p2 ← bop (fun x y => x * y) a1 b1
  let re ← bop (fun x y => x - y) p1 p2
  let p3 ← bop (fun x y => x * y) a0 b1
  let p4 ← bop (fun x y => x * y) a1 b0
  let im ← bop (fun x y => x + y) p3 p4
  stackLast re im

/-- `operators.division_complex` (operators.py:65-70): denominator
`(t2**2).sum(-1)`, then the standard quotient formula, stacked on a new
trailing axis.  No shape assert; rational division stands in for float
division (the zero-denominator non-finite propagation is outside the
model). -/
def division_complex (t1 t2 : Tensor) : Except Err Tensor := do
  let denom ← sumLast (sq t2)
  let a0 ← selectLast t1 0
  let a1 ← selectLast t1 1
  let b0 ← selectLast t2 0
  let b1 ← selectLast t2 1
  let p1 ← bop (fun x y => x * y) a0 b0
  let p2 ← bop (fun x y => x * y) a1 b1
  let num1 ← bop (fun x y => x + y) p1 p2
  let re ← bop (fun x y => x / y) num1 denom
  let p3 ← bop (fun x y => x * y) a1 b0
  let p4 ← bop (fun x y => x * y) a0 b1
  let num2 ← bop (fun x y => x - y) p3 p4
  let im ← bop (fun x y => x / y) num2 denom
  stackLast re im

/-- `operators.fftshift` (operators.py:100-106): for each listed axis, roll
by `+⌊N/2⌋` where `N` is that axis's current size. -/
def fftshift (t : Tensor) (axes : List ℕ) : Tensor :=
  axes.foldl (fun r a => r.roll ((r.shape.getD a 1 / 2 : ℕ) : ℤ) a) t

/-- `operators.ifftshift` (operators.py:108-114): for each listed axis, roll
by `-⌊N/2⌋`. -/
def ifftshift (t : Tensor) (axes : List ℕ) : Tensor :=
  axes.foldl (fun r a => r.roll (-((r.shape.getD a 1 / 2 : ℕ) : ℤ)) a) t

end op

/-- `ComplexConj.forward` (operators.py:118-120): just `conj`, with no
assert of its own. -/
def ComplexConj.forward (t : Tensor) : Except Err Tensor := op.conj t

/-- `ComplexMul.forward` (operators.py:128-135): asserts both trailing axes
are 2 (indexing `shape[-1]` of a 0-dimensional tensor raises first), then
multiplies. -/
def ComplexMul.forward (input1 input2 : Tensor) : Except Err Tensor :=
  match input1.shape.getLast? with
  | none => .error .indexError
  | some n1 =>
    if n1 = 2 then
      match input2.shape.getLast? with
      | none => .error .indexError
      | some n2 =>
        if n2 = 2 then op.multiply_complex input1 input2
        else .error .assertionError
    else .error .assertionError

/-- `grad_input1` of `ComplexMul.backward` (operators.py:140):
`multiply_complex(conj(input2), grad_output)`. -/
def ComplexMul.grad1 (input2 grad_output : Tensor) : Except Err Tensor := do
  let c ← op.conj input2
  op.multiply_complex c grad_output

/-- `grad_input2` of `ComplexMul.backward` (operators.py:141):
`multiply_complex(conj(input1), grad_output)`. -/
def ComplexMul.grad2 (input1 grad_output : Tensor) : Except Err Tensor := do
  let c ← op.conj input1
  op.multiply_complex c grad_output

/-- `ComplexMul.backward` (operators.py:137-147): the two elementwise
products, then the gradient of the lower-rank operand is reduced with
`.sum(0)` when the ranks differ. -/
def ComplexMul.backward (input1 input2 grad_output : Tensor) :
    Except Err (Tensor × Tensor) := do
  let g1 ← ComplexMul.grad1 input2 grad_output
  let g2 ← ComplexMul.grad2 input1 grad_output
  if input2.rank < input1.rank then do
    let g2s ← op.sumAxis0 g2
    pure (g1, g2s)
  else if input1.rank < input2.rank then do
    let g1s ← op.sumAxis0 g1
    pure (g1s, g2)
  else
    pure (g1, g2)

/-- `ComplexDiv.forward` (operators.py:151-158): asserts both trailing axes
are 2, then divides. -/
def ComplexDiv.forward (input1 input2 : Tensor) : Except Err Tensor :=
  match input1.shape.getLast? with
  | none => .error .indexError
  | some n1 =>
    if n1 = 2 then
      match input2.shape.getLast? with
      | none => .error .indexError
      | some n2 =>
        if n2 = 2 then op.division_complex input1 input2
        else .error .assertionError
    else .error .assertionError

/-- The in-place channel division of `ComplexDiv.backward`
(operators.py:164-166): clone `input2`, then divide channels 0 and 1 by the
denominator elementwise (any further channels of an oversized trailing axis
stay cloned). -/
def scaleChannels (t denom : Tensor) : Except Err Tensor :=
  if 1 < t.shape.getLast?.getD 0 then
    if t.shape.dropLast = denom.shape then
      .ok (ofFn t.shape (fun idx =>
        if idx.getLast?.getD 0 ≤ 1 then t.get idx / denom.get idx.dropLast
        else t.get idx))
    else .error .broadcastError
  else .error .indexError

/-- `grad_input1` of `ComplexDiv.backward` (operators.py:163-167):
`(input2 with both channels divided by (input2**2).sum(-1))` multiplied by
`grad_output`. -/
def ComplexDiv.grad1 (input2 grad_output : Tensor) : Except Err Tensor := do
  let denom ← op.sumLast (op.sq input2)
  let q ← scaleChannels input2 denom
  op.multiply_complex q grad_output

/-- `grad_input2` of `ComplexDiv.backward` (operators.py:168-169):
`(-1 * conj(division_complex(input1, multiply_complex(input2, input2))))`
multiplied by `grad_output`. -/
def ComplexDiv.grad2 (input1 input2 grad_output : Tensor) : Except Err Tensor := do
  let w ← op.multiply_complex input2 input2
  let d2 ← op.division_complex input1 w
  let c ← op.conj d2
  op.multiply_complex (op.scalarMul (-1) c) grad_output

/-- `ComplexDiv.backward` (operators.py:160-176): the two gradients, then
the lower-rank operand's gradient is reduced with `.sum(0)` when the ranks
differ. -/
def ComplexDiv.backward (input1 input2 grad_output : Tensor) :
    Except Err (Tensor × Tensor) := do
  let g1 ← ComplexDiv.grad1 input2 grad_output
  let g2 ← ComplexDiv.grad2 input1 input2 grad_output
  if input2.rank < input1.rank then do
    let g2s ← op.sumAxis0 g2
    pure (g1, g2s)
  else if input1.rank < input2.rank then do
    let g1s ← op.sumAxis0 g1
    pure (g1s, g2)
  else
    pure (g1, g2)

/-- `ComplexAbs.forward` (operators.py:180-186): asserts trailing axis 2,
then `((t**2).sum(-1))**0.5`. -/
def ComplexAbs.forward (m : TorchMath) (t : Tensor) : Except Err Tensor :=
  match t.shape.getLast? with
  | none => .error .indexError
  | some n =>
    if n = 2 then do
      let s ← op.sumLast (op.sq t)
      pure (op.mapT m.sqrt s)
    else .error .assertionError

/-- `ComplexAbs.backward` (operators.py:188-195): stack the output gradient
with zeros on a new trailing axis, stack `(cos(angle z), sin(angle z))`,
multiply the two complex tensors, and scale by `0.5`. -/
def ComplexAbs.backward (m : TorchMath) (tensor_in grad_output : Tensor) :
    Except Err Tensor := do
  let grad_c ← op.stackLast grad_output (op.zerosLike grad_output)
  let phase ← op.angle m tensor_in
  let phase_c ← op.stackLast (op.mapT m.cos phase) (op.mapT m.sin phase)
  let g ← op.multiply_complex phase_c grad_c
  pure (op.scalarMul (1 / 2) g)

/-- Spec-side formula for the abs backward rule, written from the claim's
words: `0.5 · (cos ∠z, sin ∠z)` complex-multiplied with the output gradient
embedded as a complex tensor with zero imaginary channel; stated entrywise
over the result shape `S ++ [2]`. -/
def ComplexAbs.backwardClaim (m : TorchMath) (tensor_in grad_output : Tensor) :
    Tensor :=
  ofFn (grad_output.shape ++ [2]) (fun idx =>
    let base := idx.dropLast
    let theta := m.atan2 (tensor_in.get (base ++ [1])) (tensor_in.get (base ++ [0]))
    (1 / 2) * ((if idx.getLast?.getD 0 = 0 then m.cos theta else m.sin theta) *
      grad_output.get base))

/-- `ComplexAbs2.forward` (operators.py:199-205): asserts trailing axis 2,
then takes channel 0 of `multiply_complex(conj(t), t)`. -/
def ComplexAbs2.forward (t : Tensor) : Except Err Tensor :=
  match t.shape.getLast? with
  | none => .error .indexError
  | some n =>
    if n = 2 then do
      let c ← op.conj t
      let w ← op.multiply_complex c t
      op.selectLast w 0
    else .error .assertionError

/-- `ComplexExp.forward` (operators.py:217-223): asserts trailing axis 2,
then `operators.exp`. -/
def ComplexExp.forward (m : TorchMath) (t : Tensor) : Except Err Tensor :=
  match t.shape.getLast? with
  | none => .error .indexError
  | some n =>
    if n = 2 then op.exp m t
    else .error .assertionError

/-! ## The field model of `propagation.py`

A pixel is a (real, imaginary) pair; a field is a pixel per grid point.  The
per-pixel operations below are the pointwise actions of the corresponding
`operators.py` routines on well-formed complex tensors, and the batched
torch layout juggling (`unsqueeze`/`repeat`/`permute` in `Defocus`) is
absorbed by indexing the defocus stack as a list of fields. -/

/-- A complex pixel value: (real, imaginary). -/
abbrev Cplx := ℚ × ℚ

/-- Pointwise complex product, the formula of `operators.multiply_complex`. -/
def cmul (a b : Cplx) : Cplx := (a.1 * b.1 - a.2 * b.2, a.1 * b.2 + a.2 * b.1)

/-- Pointwise complex conjugate, the formula of `operators.conj`. -/
def cconj (a : Cplx) : Cplx := (a.1, -a.2)

/-- Pointwise complex exponential, the formula of `operators.exp`. -/
def cexp (m : TorchMath) (z : Cplx) : Cplx :=
  (m.exp z.1 * m.cos z.2, m.exp z.1 * m.sin z.2)

/-- A wavefront sampled on an `H × W` grid. -/
abbrev Grid (H W : ℕ) := Fin H → Fin W → Cplx

/-- Elementwise complex multiplication of two fields. -/
def mulG {H W : ℕ} (f g : Grid H W) : Grid H W := fun i j => cmul (f i j) (g i j)

/-- Elementwise conjugate of a field. -/
def conjG {H W : ℕ} (f : Grid H W) : Grid H W := fun i j => cconj (f i j)

/-- Elementwise complex exponential of a field. -/
def cexpG {H W : ℕ} (m : TorchMath) (f : Grid H W) : Grid H W :=
  fun i j => cexp m (f i j)

/-- Real scalar times a field (torch scalar broadcast touches both
channels). -/
def smulG {H W : ℕ} (c : ℚ) (f : Grid H W) : Grid H W :=
  fun i j => (c * (f i j).1, c * (f i j).2)

/-- Elementwise sum of two fields. -/
def addG {H W : ℕ} (f g : Grid H W) : Grid H W :=
  fun i j => ((f i j).1 + (g i j).1, (f i j).2 + (g i j).2)

/-- The all-zero field. -/
def zeroG {H W : ℕ} : Grid H W := fun _ _ => (0, 0)

/-- Sum of a list of fields (`.sum(2)` over the defocus axis). -/
def sumGrids {H W : ℕ} (l : List (Grid H W)) : Grid H W :=
  l.foldl addG zeroG

/-- Sum of all pixels of a field (`.sum((0,1))`). -/
def sumGrid {H W : ℕ} (f : Grid H W) : Cplx :=
  (∑ i, ∑ j, (f i j).1, ∑ i, ∑ j, (f i j).2)

/-- Python's built-in `abs` on a float offset/distance. -/
def pyAbs (x : ℚ) : ℚ := if x < 0 then -x else x

/-- The torch 2-D FFT pair (`torch.fft` / `torch.ifft` with
`signal_ndim=2`).  External to the repository, hence a parameter; `torch.ifft`
applied to a stack of fields acts per batch entry, i.e. by mapping `ifft2`. -/
structure TorchFFT (H W : ℕ) where
  fft2 : Grid H W → Grid H W
  ifft2 : Grid H W → Grid H W

/-- `operators.convolve_kernel` with `flag_inplace=False`
(operators.py:94-98): FFT, elementwise multiply by the kernel, inverse
FFT.  (The in-place path computes the same values.) -/
def convolve_kernel {H W : ℕ} (fp : TorchFFT H W) (f k : Grid H W) : Grid H W :=
  fp.ifft2 (mulG (fp.fft2 f) k)

/-- The kernel built by `SingleSlicePropagation.forward`
(propagation.py:105-106): `exp(|d| * kernel_phase)`, conjugated when the
branch `d > 0` fails. -/
def SingleSlicePropagation.kernel {H W : ℕ} (m : TorchMath) (kernel_phase : Grid H W)
    (d : ℚ) : Grid H W :=
  if 0 < d then cexpG m (smulG (pyAbs d) kernel_phase)
  else conjG (cexpG m (smulG (pyAbs d) kernel_phase))

/-- `SingleSlicePropagation.forward` (propagation.py:102-108): identity at
distance 0, otherwise spectral convolution with the signed kernel. -/
def SingleSlicePropagation.forward {H W : ℕ} (m : TorchMath) (fp : TorchFFT H W)
    (kernel_phase : Grid H W) (field_in : Grid H W) (d : ℚ) : Grid H W :=
  if d = 0 then field_in
  else convolve_kernel fp field_in (SingleSlicePropagation.kernel m kernel_phase d)

/-- One pass of the layer loop shared by the multislice code and the claim's
per-layer description: starting at layer `i` with `niter` layers left to
process, multiply by layer `i`'s transmission, propagate (`s` when `i` is
not the last layer, `-1 * dtc` when it is), and continue.  The code's loop
(propagation.py:81-87) is this recursion started at `i = 1` with `L - 1`
iterations; the claim's uniform description is this recursion started at
`i = 0` with `L` iterations. -/
def msLayerSteps {H W : ℕ} (m : TorchMath) (fp : TorchFFT H W)
    (kernel_phase : Grid H W) (L : ℕ) (s dtc : ℚ) (obj : ℕ → Grid H W) :
    ℕ → ℕ → Grid H W → Grid H W
  | 0, _, field => field
  | niter + 1, i, field =>
    let f1 := mulG field (obj i)
    let f2 := if i < L - 1 then SingleSlicePropagation.forward m fp kernel_phase f1 s
              else SingleSlicePropagation.forward m fp kernel_phase f1 (-1 * dtc)
    msLayerSteps m fp kernel_phase L s dtc obj niter (i + 1) f2

/-- `MultislicePropagation.forward` (propagation.py:74-88) with
`distance_to_center = (L/2 - 1/2) * s` from `__init__` (propagation.py:70).
Layer 0 initialises the field (multiplying an input field when given), is
followed by an unconditional propagation by `s`, and layers `1 … L-1` run
through the loop. -/
def MultislicePropagation.forward {H W : ℕ} (m : TorchMath) (fp : TorchFFT H W)
    (kernel_phase : Grid H W) (L : ℕ) (s : ℚ) (obj : ℕ → Grid H W)
    (field_in : Option (Grid H W)) : Grid H W :=
  let dtc : ℚ := ((L : ℚ) / 2 - 1 / 2) * s
  let field0 := match field_in with
    | none => obj 0
    | some f => mulG f (obj 0)
  let field1 := SingleSlicePropagation.forward m fp kernel_phase field0 s
  msLayerSteps m fp kernel_phase L s dtc obj (L - 1) 1 field1

/-- Spec-side multislice, written from the claim's words: for every layer
`i = 0 … L-1`, multiply the current field by layer `i`'s transmission, then
propagate forward by `s` for all but the last layer and by
`-(L/2 - 1/2) * s` after the last layer. -/
def multisliceClaim {H W : ℕ} (m : TorchMath) (fp : TorchFFT H W)
    (kernel_phase : Grid H W) (L : ℕ) (s : ℚ) (obj : ℕ → Grid H W)
    (field_in : Grid H W) : Grid H W :=
  msLayerSteps m fp kernel_phase L s (((L : ℚ) / 2 - 1 / 2) * s) obj L 0 field_in

/-- A Python error escaping an operator: the `AttributeError` raised by
calling `.clone()` on a plain list. -/
inductive PyErr where
  | attributeError
deriving DecidableEq

/-- The dynamic type of the `defocus_list` argument: either a plain Python
list of floats (as in the default argument `[0.0]`) or a torch tensor of
offsets. -/
inductive DefocusList where
  | pyList (l : List ℚ)
  | pyTensor (l : List ℚ)
deriving DecidableEq

/-- The offsets held by a defocus list (iteration, `len`, indexing and
comparison work the same for both variants). -/
def DefocusList.toList : DefocusList → List ℚ
  | .pyList l => l
  | .pyTensor l => l

/-- `.clone()`: defined on tensors only; a plain Python list has no such
attribute. -/
def DefocusList.clone : DefocusList → Except PyErr DefocusList
  | .pyList _ => .error .attributeError
  | .pyTensor l => .ok (.pyTensor l)

/-- The per-offset kernel of `Defocus.forward` (propagation.py:30-31):
`exp(|offset| * kernel)`, conjugated when the branch `offset > 0` fails. -/
def Defocus.forwardKernel {H W : ℕ} (m : TorchMath) (offset : ℚ)
    (kernel : Grid H W) : Grid H W :=
  if 0 < offset then cexpG m (smulG (pyAbs offset) kernel)
  else conjG (cexpG m (smulG (pyAbs offset) kernel))

/-- The per-offset kernel of `Defocus.backward` (propagation.py:43-44):
`exp(|offset| * kernel)`, conjugated when the branch `offset < 0` fails. -/
def Defocus.backwardKernel {H W : ℕ} (m : TorchMath) (offset : ℚ)
    (kernel : Grid H W) : Grid H W :=
  if offset < 0 then cexpG m (smulG (pyAbs offset) kernel)
  else conjG (cexpG m (smulG (pyAbs offset) kernel))

/-- `Defocus.forward` (propagation.py:22-34): one forward FFT of the field,
shared across offsets; per offset, multiply by that offset's kernel and
inverse-transform.  The `unsqueeze`/`repeat`/`permute` layout steps are
absorbed by returning the per-offset fields as a list. -/
def Defocus.forward {H W : ℕ} (m : TorchMath) (fp : TorchFFT H W)
    (field kernel : Grid H W) (defocus_list : DefocusList) : List (Grid H W) :=
  let fhat := fp.fft2 field
  defocus_list.toList.map (fun offset =>
    fp.ifft2 (mulG fhat (Defocus.forwardKernel m offset kernel)))

/-- `Defocus.backward` (propagation.py:36-51).  `ctx` saved `kernel` and the
already-transformed `field` (propagation.py:23-24).  The first statement is
`defocus_list.clone()`, which raises `AttributeError` on a plain list.  On a
tensor it transforms the output gradient, multiplies per offset by the
backward kernel, accumulates each offset's scalar gradient as the real part
of `(grad * conj(field) * conj(kernel)).sum((0,1))`, inverse-transforms, and
sums the field gradient over the offset axis. -/
def Defocus.backward {H W : ℕ} (m : TorchMath) (fp : TorchFFT H W)
    (kernel fieldHat : Grid H W) (defocus_list : DefocusList)
    (grad_output : List (Grid H W)) : Except PyErr (Grid H W × DefocusList) := do
  let _ ← defocus_list.clone
  let ghat := grad_output.map fp.fft2
  let gmul := (defocus_list.toList.zip ghat).map (fun p =>
    mulG p.2 (Defocus.backwardKernel m p.1 kernel))
  let grad_defocus := gmul.map (fun g =>
    (sumGrid (mulG (mulG g (conjG fieldHat)) (conjG kernel))).1)
  let grad_field := sumGrids (gmul.map fp.ifft2)
  pure (grad_field, DefocusList.pyTensor grad_defocus)

/-! ## Infrastructure lemmas for the flat tensor model -/

theorem except_bind_ok {ε α β : Type} (a : α) (f : α → Except ε β) :
    (Except.ok a : Except ε α) >>= f = f a := rfl

theorem except_bind_err {ε α β : Type} (e : ε) (f : α → Except ε β) :
    (Except.error e : Except ε α) >>= f = .error e := rfl

theorem length_flatMap_const {α β : Type} (l : List α) (g : α → List β) (c : ℕ)
    (h : ∀ a ∈ l, (g a).length = c) : (l.flatMap g).length = l.length * c := by
  induction l with
  | nil => simp
  | cons a l ih =>
    simp only [List.flatMap_cons, List.length_append, List.length_cons]
    rw [ih (fun b hb => h b (by simp [hb])), h a (by simp)]
    ring

theorem length_allIdx (s : List ℕ) : (allIdx s).length = s.prod := by
  induction s with
  | nil => rfl
  | cons n s ih =>
    simp only [allIdx, List.prod_cons]
    rw [length_flatMap_const _ _ s.prod (fun a _ => by simp [ih]), List.length_range]

theorem getD_flatMap_range {β : Type} (n : ℕ) (g : ℕ → List β) (c : ℕ)
    (hc : ∀ j, j < n → (g j).length = c) (i r : ℕ) (hi : i < n) (hr : r < c) (d : β) :
    ((List.range n).flatMap g).getD (i * c + r) d = (g i).getD r d := by
  induction n with
  | zero => omega
  | succ n ih =>
    rw [List.range_succ, List.flatMap_append]
    have hlen : ((List.range n).flatMap g).length = n * c := by
      rw [length_flatMap_const _ _ c (fun a ha => hc a (by simp at ha; omega)),
        List.length_range]
    rcases Nat.lt_or_ge i n with h | h
    · rw [List.getD_append]
      · exact ih (fun j hj => hc j (by omega)) h
      · rw [hlen]
        calc i * c + r < i * c + c := by omega
          _ = (i + 1) * c := by ring
          _ ≤ n * c := Nat.mul_le_mul_right c (by omega)
    · have hin : i = n := by omega
      subst hin
      rw [List.getD_append_right _ _ _ _ (by rw [hlen]; exact Nat.le_add_right _ _)]
      rw [hlen, Nat.add_sub_cancel_left]
      simp [List.flatMap]

theorem flatIdx_lt {s idx : List ℕ} (h : validIdx s idx = true) :
    flatIdx s idx < s.prod := by
  induction s generalizing idx with
  | nil =>
    cases idx with
    | nil => simp [flatIdx]
    | cons i idx => simp [validIdx] at h
  | cons n s ih =>
    cases idx with
    | nil => simp [validIdx] at h
    | cons i idx =>
      simp only [validIdx, Bool.and_eq_true, decide_eq_true_eq] at h
      have h2 := ih h.2
      simp only [flatIdx, List.prod_cons]
      calc i * s.prod + flatIdx s idx < i * s.prod + s.prod := by omega
        _ = (i + 1) * s.prod := by ring
        _ ≤ n * s.prod := Nat.mul_le_mul_right _ (by omega)

theorem allIdx_getD {s idx : List ℕ} (h : validIdx s idx = true) :
    (allIdx s).getD (flatIdx s idx) [] = idx := by
  induction s generalizing idx with
  | nil =>
    cases idx with
    | nil => rfl
    | cons i idx => simp [validIdx] at h
  | cons n s ih =>
    cases idx with
    | nil => simp [validIdx] at h
    | cons i idx =>
      simp only [validIdx, Bool.and_eq_true, decide_eq_true_eq] at h
      have hflt := flatIdx_lt h.2
      simp only [allIdx, flatIdx]
      rw [getD_flatMap_range n _ s.prod (fun j _ => by simp [length_allIdx]) i
        (flatIdx s idx) h.1 hflt]
      have hlt : flatIdx s idx < ((allIdx s).map (fun idx => i :: idx)).length := by
        simpa [length_allIdx] using hflt
      rw [List.getD_eq_getElem _ _ hlt, List.getElem_map]
      have hlt2 : flatIdx s idx < (allIdx s).length := by simpa [length_allIdx] using hflt
      rw [← List.getD_eq_getElem _ [] hlt2, ih h.2]

theorem mem_allIdx {s idx : List ℕ} : idx ∈ allIdx s ↔ validIdx s idx = true := by
  induction s generalizing idx with
  | nil =>
    cases idx with
    | nil => simp [allIdx, validIdx]
    | cons i idx => simp [allIdx, validIdx]
  | cons n s ih =>
    cases idx with
    | nil =>
      simp [allIdx, validIdx, List.mem_flatMap]
    | cons i idx =>
      simp only [allIdx, List.mem_flatMap, List.mem_map, List.mem_range, validIdx,
        Bool.and_eq_true, decide_eq_true_eq]
      constructor
      · rintro ⟨a, ha, b, hb, heq⟩
        obtain ⟨rfl, rfl⟩ : a = i ∧ b = idx := by
          constructor <;> [exact (List.cons.injEq _ _ _ _ ▸ heq).1;
            exact (List.cons.injEq _ _ _ _ ▸ heq).2]
        exact ⟨ha, ih.mp hb⟩
      · rintro ⟨hi, hv⟩
        exact ⟨i, hi, idx, ih.mpr hv, rfl⟩

theorem get_ofFn {s : List ℕ} {idx : List ℕ} {f : List ℕ → ℚ}
    (h : validIdx s idx = true) : (ofFn s f).get idx = f idx := by
  unfold ofFn Tensor.get
  simp only
  have hlt : flatIdx s idx < ((allIdx s).map f).length := by
    simpa [length_allIdx] using flatIdx_lt h
  rw [List.getD_eq_getElem _ _ hlt, List.getElem_map]
  have hlt2 : flatIdx s idx < (allIdx s).length := by
    simpa [length_allIdx] using flatIdx_lt h
  rw [← List.getD_eq_getElem _ [] hlt2, allIdx_getD h]

theorem range_flatMap_mul (n P : ℕ) :
    List.range (n * P) =
      (List.range n).flatMap (fun i => (List.range P).map (fun r => i * P + r)) := by
  induction n with
  | zero => simp
  | succ n ih =>
    rw [Nat.succ_mul, List.range_add, ih, List.range_succ, List.flatMap_append]
    simp [List.flatMap]

theorem allIdx_map_flatIdx (s : List ℕ) :
    (allIdx s).map (flatIdx s) = List.range s.prod := by
  induction s with
  | nil => rfl
  | cons n s ih =>
    simp only [allIdx, List.prod_cons, List.map_flatMap]
    rw [range_flatMap_mul n s.prod]
    have hfun : ∀ i : ℕ,
        List.map (flatIdx (n :: s)) (List.map (fun idx => i :: idx) (allIdx s)) =
        List.map (fun r => i * s.prod + r) (List.range s.prod) := by
      intro i
      rw [List.map_map]
      have h1 : (flatIdx (n :: s)) ∘ (fun idx => i :: idx) =
          (fun r => i * s.prod + r) ∘ (flatIdx s) := rfl
      rw [h1, ← List.map_map, ih]
    rw [funext hfun]

theorem map_getD_range (l : List ℚ) :
    (List.range l.length).map (fun k => l.getD k 0) = l := by
  induction l with
  | nil => rfl
  | cons a l ih =>
    rw [List.length_cons, List.range_succ_eq_map, List.map_cons, List.map_map]
    simp only [List.getD_cons_zero]
    have h1 : ((fun k => (a :: l).getD k 0) ∘ Nat.succ) = (fun k => l.getD k 0) := by
      funext k
      simp [List.getD_cons_succ]
    rw [h1, ih]

theorem shape_ofFn (s : List ℕ) (f : List ℕ → ℚ) : (ofFn s f).shape = s := rfl

theorem wf_ofFn (s : List ℕ) (f : List ℕ → ℚ) : (ofFn s f).wf := by
  unfold Tensor.wf ofFn
  simp [length_allIdx]

theorem ofFn_get_self {t : Tensor} (h : t.wf) : ofFn t.shape t.get = t := by
  obtain ⟨s, d⟩ := t
  unfold Tensor.wf at h
  simp only at h
  unfold ofFn Tensor.get
  simp only [Tensor.mk.injEq, true_and]
  have h1 : (allIdx s).map (fun idx => d.getD (flatIdx s idx) 0)
      = ((allIdx s).map (flatIdx s)).map (fun k => d.getD k 0) := by
    rw [List.map_map]; rfl
  rw [h1, allIdx_map_flatIdx, ← h, map_getD_range]

theorem ofFn_congr {s : List ℕ} {f g : List ℕ → ℚ}
    (h : ∀ idx, validIdx s idx = true → f idx = g idx) : ofFn s f = ofFn s g := by
  unfold ofFn
  simp only [Tensor.mk.injEq, true_and]
  exact List.map_congr_left (fun idx hidx => h idx (mem_allIdx.mp hidx))

theorem modIdx_modIdx (a : ℕ) (f g : ℕ → ℕ) (idx : List ℕ) :
    modIdx a f (modIdx a g idx) = modIdx a (fun i => f (g i)) idx := by
  induction idx generalizing a with
  | nil => cases a <;> rfl
  | cons i idx ih =>
    cases a with
    | zero => rfl
    | succ a => simp [modIdx, ih]

theorem modIdx_comm {a b : ℕ} (hab : a ≠ b) (f g : ℕ → ℕ) (idx : List ℕ) :
    modIdx a f (modIdx b g idx) = modIdx b g (modIdx a f idx) := by
  induction idx generalizing a b with
  | nil => cases a <;> cases b <;> rfl
  | cons i idx ih =>
    cases a with
    | zero =>
      cases b with
      | zero => exact absurd rfl hab
      | succ b => rfl
    | succ a =>
      cases b with
      | zero => rfl
      | succ b =>
        have hab2 : a ≠ b := by omega
        simp [modIdx, ih hab2]

theorem modIdx_id (a : ℕ) (idx : List ℕ) : modIdx a (fun i => i) idx = idx := by
  induction idx generalizing a with
  | nil => cases a <;> rfl
  | cons i idx ih =>
    cases a with
    | zero => rfl
    | succ a => simp [modIdx, ih]

theorem modIdx_congr {a : ℕ} {f g : ℕ → ℕ} {s idx : List ℕ}
    (hfg : ∀ i, i < s.getD a 1 → f i = g i) (h : validIdx s idx = true) :
    modIdx a f idx = modIdx a g idx := by
  induction idx generalizing a s with
  | nil => cases a <;> rfl
  | cons i idx ih =>
    cases s with
    | nil => simp [validIdx] at h
    | cons n s =>
      simp only [validIdx, Bool.and_eq_true, decide_eq_true_eq] at h
      cases a with
      | zero =>
        simp only [modIdx]
        rw [hfg i (by simpa using h.1)]
      | succ a =>
        simp only [modIdx]
        rw [ih (by simpa using hfg) h.2]

theorem validIdx_modIdx {a : ℕ} {f : ℕ → ℕ} {s idx : List ℕ}
    (hf : ∀ i, i < s.getD a 1 → f i < s.getD a 1) (h : validIdx s idx = true) :
    validIdx s (modIdx a f idx) = true := by
  induction idx generalizing a s with
  | nil => cases a <;> exact h
  | cons i idx ih =>
    cases s with
    | nil => simp [validIdx] at h
    | cons n s =>
      simp only [validIdx, Bool.and_eq_true, decide_eq_true_eq] at h
      cases a with
      | zero =>
        simp only [modIdx, validIdx, Bool.and_eq_true, decide_eq_true_eq]
        exact ⟨hf i (by simpa using h.1), h.2⟩
      | succ a =>
        simp only [modIdx, validIdx, Bool.and_eq_true, decide_eq_true_eq]
        exact ⟨h.1, ih (by simpa using hf) h.2⟩

theorem shiftIdx_lt {n : ℕ} (hn : 0 < n) (k : ℤ) (i : ℕ) : shiftIdx n k i < n := by
  unfold shiftIdx
  have h1 : ((n : ℤ)) ≠ 0 := by exact_mod_cast Nat.pos_iff_ne_zero.mp hn
  have h2 := Int.emod_nonneg ((i : ℤ) - k) h1
  have h3 := Int.emod_lt_of_pos ((i : ℤ) - k) (show (0 : ℤ) < (n : ℤ) by exact_mod_cast hn)
  omega

theorem shiftIdx_shiftIdx {n : ℕ} (hn : 0 < n) (k k' : ℤ) (i : ℕ) :
    shiftIdx n k (shiftIdx n k' i) = shiftIdx n (k' + k) i := by
  unfold shiftIdx
  have h1 : ((n : ℤ)) ≠ 0 := by exact_mod_cast Nat.pos_iff_ne_zero.mp hn
  rw [Int.toNat_of_nonneg (Int.emod_nonneg _ h1)]
  rw [Int.sub_emod (((i : ℤ) - k') % (n : ℤ)) k, Int.emod_emod_of_dvd _ dvd_rfl,
    ← Int.sub_emod]
  rw [Int.sub_sub]

theorem shiftIdx_self {n : ℕ} (i : ℕ) (hi : i < n) : shiftIdx n 0 i = i := by
  unfold shiftIdx
  rw [Int.sub_zero, Int.emod_eq_of_lt (by omega) (by exact_mod_cast hi)]
  simp

theorem shape_roll (t : Tensor) (k : ℤ) (a : ℕ) : (t.roll k a).shape = t.shape := rfl

theorem wf_roll (t : Tensor) (k : ℤ) (a : ℕ) : (t.roll k a).wf := wf_ofFn _ _

theorem roll_roll (t : Tensor) (k k' : ℤ) (a : ℕ) :
    (t.roll k a).roll k' a = t.roll (k' + k) a := by
  unfold Tensor.roll
  rw [shape_ofFn]
  apply ofFn_congr
  intro idx hv
  have hmod : validIdx t.shape (modIdx a (shiftIdx (t.shape.getD a 1) k') idx) = true :=
    validIdx_modIdx (fun i hi => shiftIdx_lt (by omega) _ _) hv
  rw [get_ofFn hmod, modIdx_modIdx]
  rw [modIdx_congr (fun i hi => shiftIdx_shiftIdx (by omega) k k' i) hv]

theorem roll_zero (t : Tensor) (a : ℕ) (h : t.wf) : t.roll 0 a = t := by
  unfold Tensor.roll
  have h1 : ∀ idx, validIdx t.shape idx = true →
      t.get (modIdx a (shiftIdx (t.shape.getD a 1) 0) idx) = t.get idx := by
    intro idx hv
    rw [modIdx_congr (fun i hi => shiftIdx_self i hi) hv, modIdx_id]
  rw [ofFn_congr h1, ofFn_get_self h]

theorem roll_roll_cancel (t : Tensor) (k : ℤ) (a : ℕ) (h : t.wf) :
    (t.roll k a).roll (-k) a = t := by
  rw [roll_roll]
  have h1 : -k + k = 0 := by ring
  rw [h1, roll_zero t a h]

theorem roll_comm (t : Tensor) (k k' : ℤ) (a b : ℕ) :
    (t.roll k a).roll k' b = (t.roll k' b).roll k a := by
  rcases eq_or_ne a b with rfl | hab
  · rw [roll_roll, roll_roll, add_comm]
  · unfold Tensor.roll
    rw [shape_ofFn, shape_ofFn]
    have hL : ∀ idx, validIdx t.shape idx = true →
        (ofFn t.shape (fun idx => t.get (modIdx a (shiftIdx (t.shape.getD a 1) k) idx))).get
          (modIdx b (shiftIdx (t.shape.getD b 1) k') idx) =
        t.get (modIdx a (shiftIdx (t.shape.getD a 1) k)
          (modIdx b (shiftIdx (t.shape.getD b 1) k') idx)) := by
      intro idx hv
      exact get_ofFn (validIdx_modIdx (fun i hi => shiftIdx_lt (by omega) _ _) hv)
    have hR : ∀ idx, validIdx t.shape idx = true →
        (ofFn t.shape (fun idx => t.get (modIdx b (shiftIdx (t.shape.getD b 1) k') idx))).get
          (modIdx a (shiftIdx (t.shape.getD a 1) k) idx) =
        t.get (modIdx b (shiftIdx (t.shape.getD b 1) k')
          (modIdx a (shiftIdx (t.shape.getD a 1) k) idx)) := by
      intro idx hv
      exact get_ofFn (validIdx_modIdx (fun i hi => shiftIdx_lt (by omega) _ _) hv)
    rw [ofFn_congr hL, ofFn_congr hR]
    apply ofFn_congr
    intro idx _
    rw [modIdx_comm hab]

theorem fftshift_nil (t : Tensor) : op.fftshift t [] = t := rfl

theorem fftshift_cons (t : Tensor) (a : ℕ) (axes : List ℕ) :
    op.fftshift t (a :: axes) =
      op.fftshift (t.roll ((t.shape.getD a 1 / 2 : ℕ) : ℤ) a) axes := rfl

theorem ifftshift_nil (t : Tensor) : op.ifftshift t [] = t := rfl

theorem ifftshift_cons (t : Tensor) (a : ℕ) (axes : List ℕ) :
    op.ifftshift t (a :: axes) =
      op.ifftshift (t.roll (-((t.shape.getD a 1 / 2 : ℕ) : ℤ)) a) axes := rfl

theorem shape_fftshift (t : Tensor) (axes : List ℕ) :
    (op.fftshift t axes).shape = t.shape := by
  induction axes generalizing t with
  | nil => rfl
  | cons a axes ih => rw [fftshift_cons, ih, shape_roll]

theorem shape_ifftshift (t : Tensor) (axes : List ℕ) :
    (op.ifftshift t axes).shape = t.shape := by
  induction axes generalizing t with
  | nil => rfl
  | cons a axes ih => rw [ifftshift_cons, ih, shape_roll]

theorem wf_fftshift (t : Tensor) (axes : List ℕ) (h : t.wf) :
    (op.fftshift t axes).wf := by
  induction axes generalizing t with
  | nil => exact h
  | cons a axes ih => rw [fftshift_cons]; exact ih _ (wf_roll _ _ _)

theorem wf_ifftshift (t : Tensor) (axes : List ℕ) (h : t.wf) :
    (op.ifftshift t axes).wf := by
  induction axes generalizing t with
  | nil => exact h
  | cons a axes ih => rw [ifftshift_cons]; exact ih _ (wf_roll _ _ _)

theorem roll_fftshift (t : Tensor) (axes : List ℕ) (k : ℤ) (a : ℕ) :
    (op.fftshift t axes).roll k a = op.fftshift (t.roll k a) axes := by
  induction axes generalizing t with
  | nil => rfl
  | cons b axes ih =>
    rw [fftshift_cons, ih, roll_comm, fftshift_cons]
    rfl

theorem roll_ifftshift (t : Tensor) (axes : List ℕ) (k : ℤ) (a : ℕ) :
    (op.ifftshift t axes).roll k a = op.ifftshift (t.roll k a) axes := by
  induction axes generalizing t with
  | nil => rfl
  | cons b axes ih =>
    rw [ifftshift_cons, ih, roll_comm, ifftshift_cons]
    rfl

theorem ifftshift_fftshift (t : Tensor) (axes : List ℕ) (h : t.wf) :
    op.ifftshift (op.fftshift t axes) axes = t := by
  induction axes generalizing t with
  | nil => rfl
  | cons a axes ih =>
    rw [fftshift_cons, ifftshift_cons]
    rw [show (op.fftshift (t.roll ((t.shape.getD a 1 / 2 : ℕ) : ℤ) a) axes).shape = t.shape
      from by rw [shape_fftshift, shape_roll]]
    rw [roll_fftshift, roll_roll_cancel t _ a h, ih t h]

theorem fftshift_ifftshift (t : Tensor) (axes : List ℕ) (h : t.wf) :
    op.fftshift (op.ifftshift t axes) axes = t := by
  induction axes generalizing t with
  | nil => rfl
  | cons a axes ih =>
    rw [ifftshift_cons, fftshift_cons]
    rw [show (op.ifftshift (t.roll (-((t.shape.getD a 1 / 2 : ℕ) : ℤ)) a) axes).shape = t.shape
      from by rw [shape_ifftshift, shape_roll]]
    rw [roll_ifftshift, roll_roll]
    have h1 : ((t.shape.getD a 1 / 2 : ℕ) : ℤ) + -((t.shape.getD a 1 / 2 : ℕ) : ℤ) = 0 := by
      ring
    rw [h1, roll_zero t a h, ih t h]

/-! ## Operator success lemmas -/

theorem validIdx_append_elim {s : List ℕ} {m : ℕ} {idx : List ℕ}
    (h : validIdx (s ++ [m]) idx = true) :
    ∃ base j, idx = base ++ [j] ∧ validIdx s base = true ∧ j < m := by
  induction s generalizing idx with
  | nil =>
    cases idx with
    | nil => simp [validIdx] at h
    | cons i idx =>
      cases idx with
      | nil =>
        simp only [List.nil_append, validIdx, Bool.and_eq_true, decide_eq_true_eq] at h
        exact ⟨[], i, rfl, rfl, h.1⟩
      | cons i2 idx2 => simp [validIdx] at h
  | cons n s ih =>
    cases idx with
    | nil => simp [validIdx] at h
    | cons i idx =>
      simp only [List.cons_append, validIdx, Bool.and_eq_true, decide_eq_true_eq] at h
      obtain ⟨base, j, rfl, hb, hj⟩ := ih h.2
      refine ⟨i :: base, j, rfl, ?_, hj⟩
      simp [validIdx, hb, h.1]

theorem validIdx_append_intro {s : List ℕ} {m j : ℕ} {base : List ℕ}
    (hb : validIdx s base = true) (hj : j < m) :
    validIdx (s ++ [m]) (base ++ [j]) = true := by
  induction s generalizing base with
  | nil =>
    cases base with
    | nil => simp [validIdx, hj]
    | cons i base => simp [validIdx] at hb
  | cons n s ih =>
    cases base with
    | nil => simp [validIdx] at hb
    | cons i base =>
      simp only [validIdx, Bool.and_eq_true, decide_eq_true_eq] at hb
      simp only [List.cons_append, validIdx, Bool.and_eq_true, decide_eq_true_eq]
      exact ⟨hb.1, ih hb.2⟩

theorem selectLast_ok {t : Tensor} {i : ℕ} (h : i < t.shape.getLast?.getD 0) :
    op.selectLast t i = .ok (ofFn t.shape.dropLast (fun idx => t.get (idx ++ [i]))) := by
  unfold op.selectLast
  rw [if_pos h]

theorem stackLast_ok {t1 t2 : Tensor} (h : t1.shape = t2.shape) :
    op.stackLast t1 t2 = .ok (ofFn (t1.shape ++ [2]) (fun idx =>
      if idx.getLast?.getD 0 = 0 then t1.get idx.dropLast else t2.get idx.dropLast)) := by
  unfold op.stackLast
  rw [if_pos h]

theorem bop_ok {f : ℚ → ℚ → ℚ} {t1 t2 : Tensor} (h : t1.shape = t2.shape) :
    op.bop f t1 t2 = .ok (ofFn t1.shape (fun idx => f (t1.get idx) (t2.get idx))) := by
  unfold op.bop
  have hr : t2.rank ≤ t1.rank := by unfold Tensor.rank; rw [h]
  have hsub : t1.rank - t2.rank = 0 := by unfold Tensor.rank; rw [h]; omega
  rw [if_pos hr, hsub]
  simp only [List.drop_zero]
  rw [if_pos h]

theorem bop_ofFn (f : ℚ → ℚ → ℚ) (s : List ℕ) (g1 g2 : List ℕ → ℚ) :
    op.bop f (ofFn s g1) (ofFn s g2) =
      .ok (ofFn s (fun idx => f ((ofFn s g1).get idx) ((ofFn s g2).get idx))) :=
  bop_ok rfl

theorem stackLast_ofFn (s : List ℕ) (g1 g2 : List ℕ → ℚ) :
    op.stackLast (ofFn s g1) (ofFn s g2) = .ok (ofFn (s ++ [2]) (fun idx =>
      if idx.getLast?.getD 0 = 0 then (ofFn s g1).get idx.dropLast
      else (ofFn s g2).get idx.dropLast)) :=
  stackLast_ok rfl

theorem sumLast_ok {t : Tensor} {n : ℕ} (h : t.shape.getLast? = some n) :
    op.sumLast t = .ok (ofFn t.shape.dropLast (fun idx =>
      ((List.range n).map (fun j => t.get (idx ++ [j]))).sum)) := by
  unfold op.sumLast
  rw [h]

theorem conj_ok {t : Tensor} (h : 1 < t.shape.getLast?.getD 0) :
    op.conj t = .ok (ofFn t.shape (fun idx =>
      if idx.getLast?.getD 0 = 1 then -(t.get idx) else t.get idx)) := by
  unfold op.conj
  rw [if_pos h]

theorem exp_ok {m : TorchMath} {t : Tensor} (h : 1 < t.shape.getLast?.getD 0) :
    op.exp m t = .ok (ofFn t.shape (fun idx =>
      if idx.getLast?.getD 0 = 0 then
        m.exp (t.get (idx.dropLast ++ [0])) * m.cos (t.get (idx.dropLast ++ [1]))
      else if idx.getLast?.getD 0 = 1 then
        m.exp (t.get (idx.dropLast ++ [0])) * m.sin (t.get (idx.dropLast ++ [1]))
      else t.get idx)) := by
  unfold op.exp
  rw [if_pos h]

theorem multiply_complex_ok {t1 t2 : Tensor} (h1 : 1 < t1.shape.getLast?.getD 0)
    (hs : t1.shape = t2.shape) :
    op.multiply_complex t1 t2 = .ok (ofFn (t1.shape.dropLast ++ [2]) (fun idx =>
      if idx.getLast?.getD 0 = 0 then
        t1.get (idx.dropLast ++ [0]) * t2.get (idx.dropLast ++ [0]) -
          t1.get (idx.dropLast ++ [1]) * t2.get (idx.dropLast ++ [1])
      else
        t1.get (idx.dropLast ++ [0]) * t2.get (idx.dropLast ++ [1]) +
          t1.get (idx.dropLast ++ [1]) * t2.get (idx.dropLast ++ [0]))) := by
  have h2 : 1 < t2.shape.getLast?.getD 0 := by rw [← hs]; exact h1
  have h0 : (0 : ℕ) < t1.shape.getLast?.getD 0 := by omega
  have h02 : (0 : ℕ) < t2.shape.getLast?.getD 0 := by omega
  unfold op.multiply_complex
  rw [selectLast_ok h0, except_bind_ok, selectLast_ok h1, except_bind_ok,
    selectLast_ok h02, except_bind_ok, selectLast_ok h2, except_bind_ok]
  rw [← hs]
  rw [bop_ofFn, except_bind_ok, bop_ofFn, except_bind_ok, bop_ofFn, except_bind_ok,
    bop_ofFn, except_bind_ok, bop_ofFn, except_bind_ok, bop_ofFn, except_bind_ok,
    stackLast_ofFn]
  refine congrArg Except.ok (ofFn_congr ?_)
  intro idx hv
  obtain ⟨base, j, rfl, hbase, hj⟩ := validIdx_append_elim hv
  rw [List.dropLast_concat, List.getLast?_concat]
  simp only [Option.getD_some, get_ofFn hbase]

theorem multiply_complex_ofFn (s : List ℕ) (g1 g2 : List ℕ → ℚ) :
    op.multiply_complex (ofFn (s ++ [2]) g1) (ofFn (s ++ [2]) g2) =
      .ok (ofFn (s ++ [2]) (fun idx =>
        if idx.getLast?.getD 0 = 0 then
          (ofFn (s ++ [2]) g1).get (idx.dropLast ++ [0]) *
              (ofFn (s ++ [2]) g2).get (idx.dropLast ++ [0]) -
            (ofFn (s ++ [2]) g1).get (idx.dropLast ++ [1]) *
              (ofFn (s ++ [2]) g2).get (idx.dropLast ++ [1])
        else
          (ofFn (s ++ [2]) g1).get (idx.dropLast ++ [0]) *
              (ofFn (s ++ [2]) g2).get (idx.dropLast ++ [1]) +
            (ofFn (s ++ [2]) g1).get (idx.dropLast ++ [1]) *
              (ofFn (s ++ [2]) g2).get (idx.dropLast ++ [0]))) := by
  have h := multiply_complex_ok
    (show 1 < (ofFn (s ++ [2]) g1).shape.getLast?.getD 0 from by
      rw [shape_ofFn, List.getLast?_concat]; decide)
    (show (ofFn (s ++ [2]) g1).shape = (ofFn (s ++ [2]) g2).shape from rfl)
  simpa only [shape_ofFn, List.dropLast_concat] using h

theorem conj_ofFn (s : List ℕ) (g : List ℕ → ℚ) (h : 1 < s.getLast?.getD 0) :
    op.conj (ofFn s g) = .ok (ofFn s (fun idx =>
      if idx.getLast?.getD 0 = 1 then -((ofFn s g).get idx) else (ofFn s g).get idx)) :=
  conj_ok h

theorem angle_ok {m : TorchMath} {t : Tensor} (h : 1 < t.shape.getLast?.getD 0) :
    op.angle m t = .ok (ofFn t.shape.dropLast (fun idx =>
      m.atan2 (t.get (idx ++ [1])) (t.get (idx ++ [0])))) := by
  have h0 : (0 : ℕ) < t.shape.getLast?.getD 0 := by omega
  unfold op.angle
  rw [selectLast_ok h, except_bind_ok, selectLast_ok h0, except_bind_ok, bop_ofFn]
  refine congrArg Except.ok (ofFn_congr ?_)
  intro idx hv
  rw [get_ofFn hv, get_ofFn hv]

/-! ## The claims -/

/-- Claim C6: single-slice propagation called with propagation distance 0
returns the field's values unchanged, with no transform, kernel construction
or convolution (the early return at propagation.py:103-104). -/
theorem single_slice_zero (H W : ℕ) (m : TorchMath) (fp : TorchFFT H W)
    (kernel_phase field_in : Grid H W) :
    SingleSlicePropagation.forward m fp kernel_phase field_in 0 = field_in := by
  unfold SingleSlicePropagation.forward
  rw [if_pos rfl]

/-- Claim C8: `fftshift` followed by `ifftshift` over the same valid axes is
the identity, and for even-length axes the reverse order round-trips too. -/
theorem fftshift_roundtrip (t : Tensor) (axes : List ℕ) (hwf : t.wf)
    (_hax : ∀ a ∈ axes, a < t.rank) :
    op.ifftshift (op.fftshift t axes) axes = t ∧
    ((∀ a ∈ axes, t.shape.getD a 1 % 2 = 0) →
      op.fftshift (op.ifftshift t axes) axes = t) :=
  ⟨ifftshift_fftshift t axes hwf, fun _ => fftshift_ifftshift t axes hwf⟩

/-- Witness for C8 at a concrete 2 × 4 tensor shifted over both axes. -/
theorem fftshift_roundtrip_witness :
    op.ifftshift (op.fftshift ⟨[2, 4], [0, 1, 2, 3, 4, 5, 6, 7]⟩ [0, 1]) [0, 1] =
      (⟨[2, 4], [0, 1, 2, 3, 4, 5, 6, 7]⟩ : Tensor) ∧
    op.fftshift (op.ifftshift ⟨[2, 4], [0, 1, 2, 3, 4, 5, 6, 7]⟩ [0, 1]) [0, 1] =
      (⟨[2, 4], [0, 1, 2, 3, 4, 5, 6, 7]⟩ : Tensor) :=
  ⟨(fftshift_roundtrip ⟨[2, 4], [0, 1, 2, 3, 4, 5, 6, 7]⟩ [0, 1] (by decide) (by decide)).1,
   (fftshift_roundtrip ⟨[2, 4], [0, 1, 2, 3, 4, 5, 6, 7]⟩ [0, 1] (by decide) (by decide)).2
     (by decide)⟩

/-- Claim C9: `conj(conj(z)) = z` exactly and elementwise for every
well-formed complex tensor (trailing axis of size 2). -/
theorem conj_involution (t : Tensor) (hwf : t.wf) (h2 : t.shape.getLast? = some 2) :
    (op.conj t).bind op.conj = .ok t := by
  have h : 1 < t.shape.getLast?.getD 0 := by rw [h2]; decide
  rw [conj_ok h]
  simp only [Except.bind]
  rw [conj_ofFn t.shape _ (by rw [h2]; decide)]
  refine Eq.trans (congrArg Except.ok (ofFn_congr ?_)) (congrArg Except.ok (ofFn_get_self hwf))
  intro idx hv
  rw [get_ofFn hv]
  split
  · rename_i hc
    simp [hc]
  · rename_i hc
    simp [hc]

/-- Witness for C9 at a concrete 2 × 2 complex tensor. -/
theorem conj_involution_witness :
    (op.conj ⟨[2, 2], [1, 2, 3, 4]⟩).bind op.conj = .ok ⟨[2, 2], [1, 2, 3, 4]⟩ :=
  conj_involution ⟨[2, 2], [1, 2, 3, 4]⟩ (by decide) (by decide)

/-- Claim C10: the defocus backward pass starts with `defocus_list.clone()`,
defined only for tensors, so the forward pass succeeds with a plain list
(the default argument `[0.0]` included) while every backward pass on a plain
list fails with an attribute error; offset gradients are returned only for a
tensor defocus list. -/
theorem defocus_backward_clone (H W : ℕ) (m : TorchMath) (fp : TorchFFT H W)
    (field kernel fieldHat : Grid H W) (l : List ℚ) (grad_output : List (Grid H W)) :
    (Defocus.forward m fp field kernel (DefocusList.pyList l)).length = l.length ∧
    Defocus.backward m fp kernel fieldHat (DefocusList.pyList l) grad_output =
      .error .attributeError ∧
    (∃ r, Defocus.backward m fp kernel fieldHat (DefocusList.pyTensor l) grad_output =
      .ok r) := by
  refine ⟨?_, rfl, ⟨_, rfl⟩⟩
  simp [Defocus.forward, DefocusList.toList]

/-- Counterexample to C1 as stated: at the concrete positive offset 1 (with
a concrete scalar library whose sine is nonzero and a constant kernel), the
forward per-offset kernel of the defocus stack is the unconjugated
`exp(|offset| * kernel)`, not the conjugated one the claim requires for
positive offsets. -/
theorem defocus_sign_counterexample :
    Defocus.forwardKernel ⟨fun _ => 1, fun _ => 1, fun _ => 1, fun _ => 0, fun _ _ => 0⟩
        1 (fun (_ : Fin 1) (_ : Fin 1) => ((0 : ℚ), (1 : ℚ))) =
      cexpG ⟨fun _ => 1, fun _ => 1, fun _ => 1, fun _ => 0, fun _ _ => 0⟩
        (smulG (pyAbs 1) (fun _ _ => (0, 1))) ∧
    Defocus.forwardKernel ⟨fun _ => 1, fun _ => 1, fun _ => 1, fun _ => 0, fun _ _ => 0⟩
        1 (fun (_ : Fin 1) (_ : Fin 1) => ((0 : ℚ), (1 : ℚ))) ≠
      conjG (cexpG ⟨fun _ => 1, fun _ => 1, fun _ => 1, fun _ => 0, fun _ _ => 0⟩
        (smulG (pyAbs 1) (fun _ _ => (0, 1)))) := by
  constructor
  · with_unfolding_all decide
  · with_unfolding_all decide

/-- Claim C1 as amended: in `Defocus.forward` the per-offset kernel
`exp(|offset| * kernel)` is conjugated exactly when the offset is
non-positive — the same convention as single-slice propagation, whose kernel
construction it equals for every signed distance; the inverted convention
(conjugate exactly when the offset is non-negative) appears in
`Defocus.backward` instead. -/
theorem defocus_sign_amended (H W : ℕ) (m : TorchMath) (offset : ℚ)
    (kernel : Grid H W) :
    Defocus.forwardKernel m offset kernel =
      (if 0 < offset then cexpG m (smulG (pyAbs offset) kernel)
       else conjG (cexpG m (smulG (pyAbs offset) kernel))) ∧
    Defocus.forwardKernel m offset kernel = SingleSlicePropagation.kernel m kernel offset ∧
    Defocus.backwardKernel m offset kernel =
      (if offset < 0 then cexpG m (smulG (pyAbs offset) kernel)
       else conjG (cexpG m (smulG (pyAbs offset) kernel))) :=
  ⟨rfl, rfl, rfl⟩

/-- Counterexample to C2 as stated: for a single-layer volume (`L = 1`) the
code propagates forward by `s` after the only layer (the unconditional
propagation at propagation.py:80, with an empty loop after it), whereas the
claim's rule propagates by `-(1/2 - 1/2) * s = 0` there; at a concrete
instantiation the two outputs differ. -/
theorem multislice_single_layer_counterexample :
    MultislicePropagation.forward ⟨fun _ => 1, fun _ => 1, fun _ => 1, fun _ => 0, fun _ _ => 0⟩
        (⟨id, id⟩ : TorchFFT 1 1) (fun _ _ => (0, 0)) 1 1 (fun _ => fun _ _ => (1, 0))
        (some (fun _ _ => (1, 0))) ≠
      multisliceClaim ⟨fun _ => 1, fun _ => 1, fun _ => 1, fun _ => 0, fun _ _ => 0⟩
        (⟨id, id⟩ : TorchFFT 1 1) (fun _ _ => (0, 0)) 1 1 (fun _ => fun _ _ => (1, 0))
        (fun _ _ => (1, 0)) := by
  with_unfolding_all decide

/-- Claim C2 as amended: for every object volume of `L ≥ 2` layers with
axial spacing `s` and a supplied input field, multislice propagation
multiplies by each layer's transmission in order `i = 0 … L-1`, propagates
forward by `s` after every layer but the last, and propagates by
`-(L/2 - 1/2) * s` after the last; for `L = 1` the code instead propagates
forward by `s` after the single layer. -/
theorem msLayerSteps_succ (H W : ℕ) (m : TorchMath) (fp : TorchFFT H W)
    (kernel_phase : Grid H W) (L : ℕ) (s dtc : ℚ) (obj : ℕ → Grid H W)
    (niter i : ℕ) (field : Grid H W) :
    msLayerSteps m fp kernel_phase L s dtc obj (niter + 1) i field =
      msLayerSteps m fp kernel_phase L s dtc obj niter (i + 1)
        (if i < L - 1 then
          SingleSlicePropagation.forward m fp kernel_phase (mulG field (obj i)) s
         else
          SingleSlicePropagation.forward m fp kernel_phase (mulG field (obj i))
            (-1 * dtc)) := rfl

theorem multislice_layers (H W : ℕ) (m : TorchMath) (fp : TorchFFT H W)
    (kernel_phase : Grid H W) (L : ℕ) (s : ℚ) (obj : ℕ → Grid H W) (f : Grid H W)
    (hL : 2 ≤ L) :
    MultislicePropagation.forward m fp kernel_phase L s obj (some f) =
      multisliceClaim m fp kernel_phase L s obj f := by
  obtain ⟨k, rfl⟩ : ∃ k, L = k + 2 := ⟨L - 2, by omega⟩
  unfold MultislicePropagation.forward multisliceClaim
  rw [show k + 2 = k + 1 + 1 from rfl, msLayerSteps_succ]
  rw [if_pos (show (0 : ℕ) < k + 1 + 1 - 1 by omega)]
  rfl

/-- Witness for C2 (amended) at a concrete two-layer volume. -/
theorem multislice_layers_witness :
    MultislicePropagation.forward ⟨fun _ => 1, fun _ => 1, fun _ => 1, fun _ => 0, fun _ _ => 0⟩
        (⟨id, id⟩ : TorchFFT 1 1) (fun _ _ => (0, 1)) 2 1 (fun _ => fun _ _ => (1, 0))
        (some (fun _ _ => (1, 0))) =
      multisliceClaim ⟨fun _ => 1, fun _ => 1, fun _ => 1, fun _ => 0, fun _ _ => 0⟩
        (⟨id, id⟩ : TorchFFT 1 1) (fun _ _ => (0, 1)) 2 1 (fun _ => fun _ _ => (1, 0))
        (fun _ _ => (1, 0)) :=
  multislice_layers 1 1 ⟨fun _ => 1, fun _ => 1, fun _ => 1, fun _ => 0, fun _ _ => 0⟩
    ⟨id, id⟩ (fun _ _ => (0, 1)) 2 1 (fun _ => fun _ _ => (1, 0)) (fun _ _ => (1, 0))
    (by omega)

/-- Claim C7: with `defocus_list = [0.0]` (the default plain list) the
defocus stack operator returns, in exact arithmetic, exactly the input
field: the offset-0 kernel is `conj(exp(0)) = 1` pixelwise, and the
inverse transform of the forward transform is the identity. -/
theorem defocus_zero_identity (H W : ℕ) (m : TorchMath) (fp : TorchFFT H W)
    (field kernel : Grid H W)
    (hexp : m.exp 0 = 1) (hcos : m.cos 0 = 1) (hsin : m.sin 0 = 0)
    (hfft : ∀ gr : Grid H W, fp.ifft2 (fp.fft2 gr) = gr) :
    Defocus.forward m fp field kernel (DefocusList.pyList [0]) = [field] := by
  unfold Defocus.forward
  simp only [DefocusList.toList, List.map_cons, List.map_nil]
  have hk : Defocus.forwardKernel m 0 kernel = fun _ _ => (1, 0) := by
    unfold Defocus.forwardKernel
    rw [if_neg (lt_irrefl 0)]
    funext i j
    unfold conjG cexpG cconj cexp smulG pyAbs
    simp [hexp, hcos, hsin]
  rw [hk]
  have hmul : mulG (fp.fft2 field) (fun _ _ => ((1 : ℚ), (0 : ℚ))) = fp.fft2 field := by
    funext i j
    unfold mulG cmul
    simp
  rw [hmul, hfft]

/-- Witness for C7 at a concrete 1 × 1 field and kernel, with a concrete
scalar library satisfying `exp 0 = 1`, `cos 0 = 1`, `sin 0 = 0` and the
identity FFT pair. -/
theorem defocus_zero_identity_witness :
    Defocus.forward ⟨fun _ => 1, fun _ => 1, fun _ => 0, fun _ => 0, fun _ _ => 0⟩
        (⟨id, id⟩ : TorchFFT 1 1) (fun _ _ => (3, 4)) (fun _ _ => (0, 1))
        (DefocusList.pyList [0]) = [fun _ _ => (3, 4)] :=
  defocus_zero_identity 1 1 ⟨fun _ => 1, fun _ => 1, fun _ => 0, fun _ => 0, fun _ _ => 0⟩
    ⟨id, id⟩ (fun _ _ => (3, 4)) (fun _ _ => (0, 1)) rfl rfl rfl (fun _ => rfl)

/-- Counterexample to C3 as stated: the conjugate operator (both the
primitive and its differentiable wrapper) silently computes a result on a
malformed complex tensor whose trailing axis has size 3, instead of failing
with a shape error. -/
theorem shape_check_counterexample :
    (⟨[3], [1, 2, 3]⟩ : Tensor).shape.getLast? = some 3 ∧
    op.conj ⟨[3], [1, 2, 3]⟩ = .ok ⟨[3], [1, -2, 3]⟩ ∧
    ComplexConj.forward ⟨[3], [1, 2, 3]⟩ = .ok ⟨[3], [1, -2, 3]⟩ := by
  refine ⟨rfl, ?_, ?_⟩ <;> with_unfolding_all decide

/-- Claim C3 as amended: only `abs` and the asserting differentiable
wrappers (multiply, divide, abs, abs squared, exp) fail whenever the
trailing axis is not exactly 2; the primitives conj, angle, exp, multiply
and divide, and the conj wrapper, perform no check and silently compute a
result on any trailing axis of size at least 2 (they fail only when the
trailing axis is missing or smaller than 2, with an index error). -/
theorem shape_check_amended (m : TorchMath) (t : Tensor) :
    (t.shape.getLast? ≠ some 2 →
      isErr (op.abs m t) = true ∧
      isErr (ComplexMul.forward t t) = true ∧
      isErr (ComplexDiv.forward t t) = true ∧
      isErr (ComplexAbs.forward m t) = true ∧
      isErr (ComplexAbs2.forward t) = true ∧
      isErr (ComplexExp.forward m t) = true) ∧
    (∀ n, t.shape.getLast? = some n → 2 ≤ n →
      isOk (op.conj t) = true ∧
      isOk (ComplexConj.forward t) = true ∧
      isOk (op.angle m t) = true ∧
      isOk (op.exp m t) = true ∧
      isOk (op.multiply_complex t t) = true ∧
      isOk (op.division_complex t t) = true) := by
  constructor
  · intro hne
    rcases hh : t.shape.getLast? with _ | n
    · refine ⟨?_, ?_, ?_, ?_, ?_, ?_⟩ <;>
        simp [op.abs, ComplexMul.forward, ComplexDiv.forward, ComplexAbs.forward,
          ComplexAbs2.forward, ComplexExp.forward, hh, isErr]
    · have hn2 : n ≠ 2 := by rw [hh] at hne; simpa using hne
      refine ⟨?_, ?_, ?_, ?_, ?_, ?_⟩ <;>
        simp [op.abs, ComplexMul.forward, ComplexDiv.forward, ComplexAbs.forward,
          ComplexAbs2.forward, ComplexExp.forward, hh, hn2, isErr]
  · intro n hh hn
    have hlt : 1 < t.shape.getLast?.getD 0 := by rw [hh]; simpa using hn
    have h0 : (0 : ℕ) < t.shape.getLast?.getD 0 := by omega
    refine ⟨?_, ?_, ?_, ?_, ?_, ?_⟩
    · rw [conj_ok hlt]; rfl
    · unfold ComplexConj.forward; rw [conj_ok hlt]; rfl
    · rw [angle_ok hlt]; rfl
    · rw [exp_ok hlt]; rfl
    · rw [multiply_complex_ok hlt rfl]; rfl
    · unfold op.division_complex
      simp only [sumLast_ok (show (op.sq t).shape.getLast? = some n from hh),
        selectLast_ok h0, selectLast_ok hlt, except_bind_ok]
      simp only [show (op.sq t).shape = t.shape from rfl]
      simp only [bop_ofFn, except_bind_ok, stackLast_ofFn]
      rfl

/-- Witness for C3 (amended): on a trailing axis of size 3, `abs` raises
while the unchecked multiply primitive computes a result. -/
theorem shape_check_amended_witness :
    isErr (op.abs ⟨fun _ => 1, fun _ => 1, fun _ => 1, fun _ => 0, fun _ _ => 0⟩
      ⟨[3], [1, 2, 3]⟩) = true ∧
    isOk (op.multiply_complex (⟨[3], [1, 2, 3]⟩ : Tensor) ⟨[3], [1, 2, 3]⟩) = true :=
  ⟨((shape_check_amended ⟨fun _ => 1, fun _ => 1, fun _ => 1, fun _ => 0, fun _ _ => 0⟩
      ⟨[3], [1, 2, 3]⟩).1 (by decide)).1,
   ((shape_check_amended ⟨fun _ => 1, fun _ => 1, fun _ => 1, fun _ => 0, fun _ _ => 0⟩
      ⟨[3], [1, 2, 3]⟩).2 3 rfl (by omega)).2.2.2.2.1⟩

/-- Claim C5: in the backward passes of the complex multiply and complex
divide operators, when one operand has exactly one more leading axis than
the other the lower-rank operand's gradient is the elementwise backward
product summed over axis 0, and with equal ranks no summation is applied. -/
theorem broadcast_reduction_backward (i1 i2 g p1 p2 q1 q2 : Tensor)
    (hm1 : ComplexMul.grad1 i2 g = .ok p1) (hm2 : ComplexMul.grad2 i1 g = .ok p2)
    (hd1 : ComplexDiv.grad1 i2 g = .ok q1) (hd2 : ComplexDiv.grad2 i1 i2 g = .ok q2) :
    (i1.rank = i2.rank + 1 →
      ComplexMul.backward i1 i2 g = (op.sumAxis0 p2).map (fun r => (p1, r)) ∧
      ComplexDiv.backward i1 i2 g = (op.sumAxis0 q2).map (fun r => (q1, r))) ∧
    (i2.rank = i1.rank + 1 →
      ComplexMul.backward i1 i2 g = (op.sumAxis0 p1).map (fun r => (r, p2)) ∧
      ComplexDiv.backward i1 i2 g = (op.sumAxis0 q1).map (fun r => (r, q2))) ∧
    (i1.rank = i2.rank →
      ComplexMul.backward i1 i2 g = .ok (p1, p2) ∧
      ComplexDiv.backward i1 i2 g = .ok (q1, q2)) := by
  unfold ComplexMul.backward ComplexDiv.backward
  rw [hm1, hm2, hd1, hd2]
  simp only [except_bind_ok]
  refine ⟨fun h => ⟨?_, ?_⟩, fun h => ⟨?_, ?_⟩, fun h => ⟨?_, ?_⟩⟩
  · rw [if_pos (by omega : i2.rank < i1.rank)]
    rcases hs : op.sumAxis0 p2 with e | v <;> rfl
  · rw [if_pos (by omega : i2.rank < i1.rank)]
    rcases hs : op.sumAxis0 q2 with e | v <;> rfl
  · rw [if_neg (by omega : ¬ i2.rank < i1.rank), if_pos (by omega : i1.rank < i2.rank)]
    rcases hs : op.sumAxis0 p1 with e | v <;> rfl
  · rw [if_neg (by omega : ¬ i2.rank < i1.rank), if_pos (by omega : i1.rank < i2.rank)]
    rcases hs : op.sumAxis0 q1 with e | v <;> rfl
  · rw [if_neg (by omega : ¬ i2.rank < i1.rank), if_neg (by omega : ¬ i1.rank < i2.rank)]
    rfl
  · rw [if_neg (by omega : ¬ i2.rank < i1.rank), if_neg (by omega : ¬ i1.rank < i2.rank)]
    rfl

/-- Witness for C5 at concrete tensors: a batch of three complex scalars
against one complex scalar (rank mismatch of exactly one axis). -/
theorem broadcast_reduction_backward_witness :
    ComplexMul.backward ⟨[3, 2], [1, 0, 0, 1, 1, 1]⟩ ⟨[2], [1, 0]⟩
        ⟨[3, 2], [1, 2, 3, 4, 5, 6]⟩ =
      (op.sumAxis0 ⟨[3, 2], [1, 2, 4, -3, 11, 1]⟩).map
        (fun r => (⟨[3, 2], [1, 2, 3, 4, 5, 6]⟩, r)) ∧
    ComplexDiv.backward ⟨[3, 2], [1, 0, 0, 1, 1, 1]⟩ ⟨[2], [1, 0]⟩
        ⟨[3, 2], [1, 2, 3, 4, 5, 6]⟩ =
      (op.sumAxis0 ⟨[3, 2], [-1, -2, -4, 3, -11, -1]⟩).map
        (fun r => (⟨[3, 2], [1, 2, 3, 4, 5, 6]⟩, r)) :=
  (broadcast_reduction_backward ⟨[3, 2], [1, 0, 0, 1, 1, 1]⟩ ⟨[2], [1, 0]⟩
      ⟨[3, 2], [1, 2, 3, 4, 5, 6]⟩ ⟨[3, 2], [1, 2, 3, 4, 5, 6]⟩
      ⟨[3, 2], [1, 2, 4, -3, 11, 1]⟩ ⟨[3, 2], [1, 2, 3, 4, 5, 6]⟩
      ⟨[3, 2], [-1, -2, -4, 3, -11, -1]⟩
      (by with_unfolding_all decide) (by with_unfolding_all decide)
      (by with_unfolding_all decide) (by with_unfolding_all decide)).1 (by decide)

/-- Claim C4: for every complex tensor `z` and output gradient `g`, the
backward rule of the differentiable absolute-value operator returns
`0.5 · (cos ∠z, sin ∠z)` complex-multiplied with `g` embedded as a complex
tensor with zero imaginary channel — the intentional 0.5 factor, not the
textbook `z/|z|` rule. -/
theorem abs_backward_formula (m : TorchMath) (z g : Tensor)
    (hz : z.shape = g.shape ++ [2]) :
    ComplexAbs.backward m z g = .ok (ComplexAbs.backwardClaim m z g) := by
  have hzlast : 1 < z.shape.getLast?.getD 0 := by
    rw [hz, List.getLast?_concat]; decide
  unfold ComplexAbs.backward
  rw [stackLast_ok (show g.shape = (op.zerosLike g).shape from rfl), except_bind_ok]
  rw [angle_ok hzlast, except_bind_ok]
  rw [show z.shape.dropLast = g.shape from by rw [hz, List.dropLast_concat]]
  simp only [op.zerosLike, op.mapT, shape_ofFn]
  rw [stackLast_ofFn, except_bind_ok]
  rw [multiply_complex_ofFn, except_bind_ok]
  simp only [op.scalarMul, op.mapT, shape_ofFn]
  refine congrArg Except.ok ?_
  unfold ComplexAbs.backwardClaim
  apply ofFn_congr
  intro idx hv
  obtain ⟨base, j, rfl, hbase, hj⟩ := validIdx_append_elim hv
  have hb0 : validIdx (g.shape ++ [2]) (base ++ [0]) = true :=
    validIdx_append_intro hbase (by omega)
  have hb1 : validIdx (g.shape ++ [2]) (base ++ [1]) = true :=
    validIdx_append_intro hbase (by omega)
  interval_cases j <;>
    simp [get_ofFn hv, get_ofFn hb0, get_ofFn hb1, get_ofFn hbase,
      List.dropLast_concat, List.getLast?_concat]

/-- Witness for C4 at a concrete 2-vector of complex values and gradient,
with a concrete scalar library. -/
theorem abs_backward_formula_witness :
    ComplexAbs.backward ⟨fun x => x + 1, fun x => 2 * x, fun x => 3 * x, fun _ => 0,
        fun a b => a - b⟩ ⟨[2, 2], [1, 2, 3, 4]⟩ ⟨[2], [5, 7]⟩ =
      .ok (ComplexAbs.backwardClaim ⟨fun x => x + 1, fun x => 2 * x, fun x => 3 * x,
        fun _ => 0, fun a b => a - b⟩ ⟨[2, 2], [1, 2, 3, 4]⟩ ⟨[2], [5, 7]⟩) :=
  abs_backward_formula ⟨fun x => x + 1, fun x => 2 * x, fun x => 3 * x, fun _ => 0,
    fun a b => a - b⟩ ⟨[2, 2], [1, 2, 3, 4]⟩ ⟨[2], [5, 7]⟩ (by decide)

end PCTS
